import Mathlib

/-!
# Verification of the muchjson template-driven data generator

This file gives a shallow embedding of the core of `main.ts` (and its split
variant `generators.ts` / `trackers.ts`): the JSON-like value model, the
builtin value generators, the template flattener, the dependency extraction
performed by the `Generator` constructor, the cross-template `ValueTracker`,
and the `executionOrder` planner.  Randomness (`Math.random()`) is modelled
by an explicit rational parameter `r` with `0 ≤ r < 1`; each theorem that
talks about "every outcome of the random source" quantifies over `r`.
-/

namespace MuchJson

/-- A JavaScript/JSON value as manipulated by the generator.  `undef` models
the JavaScript `undefined` value (e.g. the result of an out-of-bounds array
index), which is distinct from `null`. -/
inductive JVal where
  | null : JVal
  | undef : JVal
  | bool : Bool → JVal
  | num : Int → JVal
  | str : String → JVal
  | arr : List JVal → JVal
  | obj : List (String × JVal) → JVal

/-- JavaScript truthiness of a value (`if (value) ...`). -/
def truthy : JVal → Bool
  | .null => false
  | .undef => false
  | .bool b => b
  | .num n => n != 0
  | .str s => s != ""
  | .arr _ => true
  | .obj _ => true

/-- Property access `v?.k`: on an object, the first binding of `k`;
on anything else, `undefined` (modelled as `none`). -/
def getField : JVal → String → Option JVal
  | .obj fs, k => fs.lookup k
  | _, _ => none

/-- The check `value?.generator` performed by `flatten` (truthiness of the
`generator` property). -/
def hasTruthyGenerator (v : JVal) : Bool :=
  ((getField v "generator").map truthy).getD false

/-- JavaScript `a || b` on two possibly-absent strings (an absent value and
the empty string are falsy). -/
def jsOr (a b : Option String) : Option String :=
  match a with
  | some s => if s = "" then b else some s
  | none => b

/-- `Math.floor(r * n)` used as a random index into a list of length `n`. -/
def jsIndex (r : ℚ) (n : ℕ) : ℕ := (⌊r * (n : ℚ)⌋).toNat

theorem jsIndex_lt {r : ℚ} {n : ℕ} (h0 : 0 ≤ r) (h1 : r < 1) (hn : 0 < n) :
    jsIndex r n < n := by
  have hfloor : ⌊r * (n : ℚ)⌋ < (n : ℤ) := by
    rw [Int.floor_lt]
    push_cast
    calc r * (n : ℚ) < 1 * (n : ℚ) := by
          apply mul_lt_mul_of_pos_right h1
          exact_mod_cast hn
      _ = (n : ℚ) := one_mul _
  have hpos : 0 ≤ ⌊r * (n : ℚ)⌋ := Int.floor_nonneg.mpr (by positivity)
  unfold jsIndex
  omega

/-- `EnumValueGenerator.generate`: `this.options.options[Math.floor(Math.random()
* this.options.options.length)]`.  An out-of-bounds index yields `undefined`. -/
def enumGenerate (options : List JVal) (r : ℚ) : JVal :=
  options.getD (jsIndex r options.length) JVal.undef

/-- C8: for every enum leaf with non-empty option list `S`, every value
returned by `EnumValueGenerator.generate` is a member of `S`, for every
outcome of the random source. -/
theorem enumGenerate_mem (options : List JVal) (r : ℚ)
    (h0 : 0 ≤ r) (h1 : r < 1) (hne : options ≠ []) :
    enumGenerate options r ∈ options := by
  have hlen : 0 < options.length := List.length_pos.mpr hne
  have hidx : jsIndex r options.length < options.length := jsIndex_lt h0 h1 hlen
  rw [enumGenerate, List.getD_eq_getElem _ _ hidx]
  exact List.getElem_mem _

/-- Witness for C8: with options `["one","two","three"]` (the repository's own
test fixture) and `r = 1/2`, the hypotheses hold and the result is in the list. -/
theorem enumGenerate_mem_witness :
    ((0 : ℚ) ≤ 1/2 ∧ (1/2 : ℚ) < 1 ∧ [JVal.str "one", JVal.str "two", JVal.str "three"] ≠ []) ∧
      enumGenerate [JVal.str "one", JVal.str "two", JVal.str "three"] (1/2) ∈
        [JVal.str "one", JVal.str "two", JVal.str "three"] :=
  ⟨⟨by norm_num, by norm_num, by simp⟩,
    enumGenerate_mem [JVal.str "one", JVal.str "two", JVal.str "three"] (1/2)
      (by norm_num) (by norm_num) (by simp)⟩

/-! ## Cross-template value tracking and the reference generator -/

/-- The `values` map of a `ValueTracker`: property path → accumulated values.
Keys are `Option String` because a JavaScript `Map` accepts `undefined` as a
key and `track`/`add` may be called with an absent property. -/
abbrev VTracker := List (Option String × List JVal)

/-- The `valueTrackers` registry: producer template name → its tracker. -/
abbrev Trackers := List (Option String × VTracker)

/-- `ValueTracker.tracks(property)`: whether the property has an entry. -/
def vtTracks (vt : VTracker) (p : Option String) : Bool :=
  (vt.lookup p).isSome

/-- `ValueTracker.track(property)`: create an empty entry unless present. -/
def vtTrack (vt : VTracker) (p : Option String) : VTracker :=
  if (vt.lookup p).isSome then vt else vt ++ [(p, [])]

/-- `ValueTracker.add(property, value)`: append to the entry's list,
creating a singleton list when the property has no entry. -/
def vtAdd (vt : VTracker) (p : Option String) (v : JVal) : VTracker :=
  if (vt.lookup p).isSome then
    vt.map (fun kv => if kv.1 = p then (kv.1, kv.2 ++ [v]) else kv)
  else vt ++ [(p, [v])]

/-- The lookup performed by `ReferenceValueGenerator.generate`:
`this.valueTrackers.get(this.options.otherGenerator || this.options.other)
?.get(this.options.property)`. -/
def refLookup (tr : Trackers) (otherGen other property : Option String) :
    Option (List JVal) :=
  (tr.lookup (jsOr otherGen other)).bind (fun vt => vt.lookup property)

/-- `ReferenceValueGenerator.generate`: a random element of the accumulated
list when the lookup succeeds (an empty list is truthy in JavaScript, so it
yields the out-of-bounds element `undefined`), otherwise `null`. -/
def refGenerate (tr : Trackers) (otherGen other property : Option String)
    (r : ℚ) : JVal :=
  match refLookup tr otherGen other property with
  | some vs => vs.getD (jsIndex r vs.length) JVal.undef
  | none => JVal.null

/-- JavaScript null-equivalent values: `null` and `undefined`
(both satisfy `x == null`). -/
def nullEquivalent (v : JVal) : Prop := v = JVal.null ∨ v = JVal.undef

/-- C5: every value returned by `ReferenceValueGenerator.generate` is an
element of the tracker's accumulated list for the resolved (producer, path)
whenever that list is non-empty; when no values are available (tracker
absent, path untracked, or the tracked list still empty) the result is a
null-equivalent value, for every outcome of the random source. -/
theorem refGenerate_spec (tr : Trackers) (otherGen other property : Option String)
    (r : ℚ) (h0 : 0 ≤ r) (h1 : r < 1) :
    (∀ vs, refLookup tr otherGen other property = some vs → vs ≠ [] →
      refGenerate tr otherGen other property r ∈ vs) ∧
    (refLookup tr otherGen other property = some [] ∨
        refLookup tr otherGen other property = none →
      nullEquivalent (refGenerate tr otherGen other property r)) := by
  constructor
  · intro vs hvs hne
    rw [refGenerate, hvs]
    show vs.getD (jsIndex r vs.length) JVal.undef ∈ vs
    have hlen : 0 < vs.length := List.length_pos.mpr hne
    have hidx : jsIndex r vs.length < vs.length := jsIndex_lt h0 h1 hlen
    rw [List.getD_eq_getElem _ _ hidx]
    exact List.getElem_mem _
  · rintro (hvs | hvs) <;> rw [refGenerate, hvs]
    · exact Or.inr rfl
    · exact Or.inl rfl

/-- Witness for C5: with a tracker where producer `P` has accumulated
`[1, 2, 3]` at path `x` and `r = 1/2`, the result is an element of the list;
with an untracked path the result is null-equivalent. -/
theorem refGenerate_spec_witness :
    ((0 : ℚ) ≤ 1/2 ∧ (1/2 : ℚ) < 1 ∧
      refLookup [(some "P", [(some "x", [JVal.num 1, JVal.num 2, JVal.num 3])])]
        none (some "P") (some "x") = some [JVal.num 1, JVal.num 2, JVal.num 3]) ∧
    refGenerate [(some "P", [(some "x", [JVal.num 1, JVal.num 2, JVal.num 3])])]
        none (some "P") (some "x") (1/2) ∈ [JVal.num 1, JVal.num 2, JVal.num 3] ∧
    nullEquivalent (refGenerate [(some "P", [(some "x", [JVal.num 1, JVal.num 2, JVal.num 3])])]
        none (some "P") (some "y") (1/2)) :=
  ⟨⟨by norm_num, by norm_num, rfl⟩,
    (refGenerate_spec [(some "P", [(some "x", [JVal.num 1, JVal.num 2, JVal.num 3])])]
        none (some "P") (some "x") (1/2) (by norm_num) (by norm_num)).1
      [JVal.num 1, JVal.num 2, JVal.num 3] rfl (by simp),
    (refGenerate_spec [(some "P", [(some "x", [JVal.num 1, JVal.num 2, JVal.num 3])])]
        none (some "P") (some "y") (1/2) (by norm_num) (by norm_num)).2
      (Or.inr rfl)⟩

/-! ## The join generator and its count -/

/-- `randomBetween({min, max})`: `Math.floor((min || 0) + Math.random() * (max || 0))`.
Absent fields default to 0 (`x || 0` is `0` exactly when `x` is absent or `0`,
so `getD 0` is faithful for integer inputs). -/
def randomBetween (min? max? : Option ℤ) (r : ℚ) : ℤ :=
  ⌊((min?.getD 0 : ℤ) : ℚ) + r * ((max?.getD 0 : ℤ) : ℚ)⌋

/-- The element count drawn by `JoinValueGenerator.generate`:
`randomBetween(this.options?.count || { min: 1, max: 10 })`. -/
def joinCount (count? : Option (Option ℤ × Option ℤ)) (r : ℚ) : ℤ :=
  randomBetween (count?.getD (some 1, some 10)).1 (count?.getD (some 1, some 10)).2 r

/-- `JoinValueGenerator.generate`: produce `count` elements with the
internally-owned element generator (abstracted here by the sequence
`element : ℕ → String` of its successive outputs) and join them with the
separator, surrounded by the prefix and suffix strings (`pre`/`suf` model
`options.prefix` / `options.suffix` after `maybeGenerate`). -/
def joinGenerate (element : ℕ → String) (count? : Option (Option ℤ × Option ℤ))
    (separator pre suf : String) (r : ℚ) : String :=
  pre ++ String.intercalate separator ((List.range (joinCount count? r).toNat).map element) ++ suf

/-- Counterexample to C1: with `count: {min:2, max:2}`, separator `","` and
random outcome `r = 1/2`, the drawn count is `⌊2 + (1/2)·2⌋ = 3` — not in the
claimed interval `[2, 2)` — and the output is a comma-joined triple, not
"exactly one comma-joined pair". -/
theorem joinGenerate_count_2_2_cex :
    joinCount (some (some 2, some 2)) (1/2) = 3 ∧
    joinGenerate (fun _ => "x") (some (some 2, some 2)) "," "" "" (1/2) = "x,x,x" := by
  constructor
  · show (⌊((2 : ℤ) : ℚ) + 1/2 * ((2 : ℤ) : ℚ)⌋ : ℤ) = 3
    norm_num
  · have h : joinCount (some (some 2, some 2)) (1/2) = 3 := by
      show (⌊((2 : ℤ) : ℚ) + 1/2 * ((2 : ℤ) : ℚ)⌋ : ℤ) = 3
      norm_num
    rw [joinGenerate, h]
    rfl

/-- C1 (amended): `randomBetween {min, max}` draws an integer from the
half-open interval `[min, min + max)` (not `[min, max)`), so a join leaf with
`count: {min:2, max:2}` produces two **or three** elements, for every outcome
of the random source. -/
theorem randomBetween_range (m M : ℤ) (r : ℚ) (h0 : 0 ≤ r) (h1 : r < 1)
    (hM : 0 < M) :
    (m ≤ randomBetween (some m) (some M) r ∧
      randomBetween (some m) (some M) r < m + M) ∧
    (joinCount (some (some 2, some 2)) r = 2 ∨
      joinCount (some (some 2, some 2)) r = 3) := by
  have key : ∀ m' M' : ℤ, 0 < M' → m' ≤ randomBetween (some m') (some M') r ∧
      randomBetween (some m') (some M') r < m' + M' := by
    intro m' M' hM'
    unfold randomBetween
    simp only [Option.getD_some]
    constructor
    · apply Int.le_floor.mpr
      have : 0 ≤ r * (M' : ℚ) := by positivity
      linarith
    · apply Int.floor_lt.mpr
      have : r * (M' : ℚ) < 1 * (M' : ℚ) := by
        apply mul_lt_mul_of_pos_right h1
        exact_mod_cast hM'
      push_cast
      linarith
  refine ⟨key m M hM, ?_⟩
  have h22 := key 2 2 (by norm_num)
  have : joinCount (some (some 2, some 2)) r = randomBetween (some 2) (some 2) r := rfl
  omega

/-- Witness for C1's amended theorem at `m = 2`, `M = 2`, `r = 1/2`. -/
theorem randomBetween_range_witness :
    ((0 : ℚ) ≤ 1/2 ∧ (1/2 : ℚ) < 1 ∧ (0 : ℤ) < 2) ∧
    ((2 ≤ randomBetween (some 2) (some 2) (1/2) ∧
        randomBetween (some 2) (some 2) (1/2) < 2 + 2) ∧
      (joinCount (some (some 2, some 2)) (1/2) = 2 ∨
        joinCount (some (some 2, some 2)) (1/2) = 3)) :=
  ⟨⟨by norm_num, by norm_num, by norm_num⟩,
    randomBetween_range 2 2 (1/2) (by norm_num) (by norm_num) (by norm_num)⟩

/-! ## The file generator -/

/-- `FileValueGenerator.read(file)`: returns `""` for a falsy argument
(absent or empty filename), otherwise the file's content, abstracted by the
`read` map from filename to content. -/
def readJs (read : String → String) (file : Option String) : String :=
  match file with
  | none => ""
  | some f => if f = "" then "" else read f

/-- `FileValueGenerator.generate`: `null` once the (shuffled) filename list is
empty; with `unique` set, pop the last filename and read it; otherwise read a
uniformly random filename, leaving the list unchanged.  Returns the produced
value together with the updated filename list. -/
def fileGenerate (read : String → String) (uniq : Bool) (r : ℚ) :
    List String → JVal × List String
  | [] => (JVal.null, [])
  | f :: fs =>
    if uniq then (JVal.str (readJs read (f :: fs).getLast?), (f :: fs).dropLast)
    else (JVal.str (readJs read (f :: fs)[jsIndex r (f :: fs).length]?), f :: fs)

/-- A sequence of `n` successive `generate` calls on one `FileValueGenerator`
instance, threading its internal filename list; `rs i` is the random outcome
of the `i`-th call. -/
def fileGenRun (read : String → String) (uniq : Bool) (rs : ℕ → ℚ) :
    List String → ℕ → List JVal
  | _, 0 => []
  | fs, n + 1 =>
    (fileGenerate read uniq (rs 0) fs).1 ::
      fileGenRun read uniq (fun i => rs (i + 1)) (fileGenerate read uniq (rs 0) fs).2 n

theorem fileGenerate_unique_ne_nil (read : String → String) (r : ℚ)
    (fs : List String) (h : fs ≠ []) :
    fileGenerate read true r fs =
      (JVal.str (readJs read fs.getLast?), fs.dropLast) := by
  cases fs with
  | nil => exact absurd rfl h
  | cons f fs => simp [fileGenerate]

theorem fileGenRun_cons (read : String → String) (uniq : Bool) (rs : ℕ → ℚ)
    (fs : List String) (n : ℕ) :
    fileGenRun read uniq rs fs (n + 1) =
      (fileGenerate read uniq (rs 0) fs).1 ::
        fileGenRun read uniq (fun i => rs (i + 1)) (fileGenerate read uniq (rs 0) fs).2 n := by
  rfl

theorem fileGenRun_empty (read : String → String) (uniq : Bool) :
    ∀ (k : ℕ) (rs : ℕ → ℚ),
      fileGenRun read uniq rs [] k = List.replicate k JVal.null := by
  intro k
  induction k with
  | zero => intro rs; rfl
  | succ k ih =>
    intro rs
    rw [fileGenRun_cons]
    have h1 : fileGenerate read uniq (rs 0) [] = (JVal.null, []) := rfl
    rw [h1, ih, List.replicate_succ]

theorem fileGenRun_unique_eq (read : String → String) (k : ℕ) :
    ∀ (fs : List String) (rs : ℕ → ℚ),
      fileGenRun read true rs fs (fs.length + k) =
        fs.reverse.map (fun f => JVal.str (readJs read (some f))) ++
          List.replicate k JVal.null := by
  intro fs
  induction fs using List.reverseRecOn with
  | nil => intro rs; simpa using fileGenRun_empty read true k rs
  | append_singleton ys y ih =>
    intro rs
    have hlen : (ys ++ [y]).length + k = (ys.length + k) + 1 := by
      simp only [List.length_append, List.length_singleton]
      omega
    rw [hlen, fileGenRun_cons,
      fileGenerate_unique_ne_nil read (rs 0) (ys ++ [y]) (by simp)]
    simp only [List.getLast?_concat, List.dropLast_concat]
    rw [ih (fun i => rs (i + 1))]
    simp [List.reverse_append]

/-- C3: for a file generator with `unique: true` whose shuffled filename list
`fs` is a permutation of the directory's `n` files `names`, the first `n`
`generate` calls return the `n` files' contents — each file consumed exactly
once, in some shuffled order — and every call after the `n`-th returns the
empty-equivalent value `null`. -/
theorem fileGen_unique_spec (read : String → String) (names fs : List String)
    (rs : ℕ → ℚ) (k : ℕ) (hperm : fs.Perm names) :
    ∃ order : List String, order.Perm names ∧
      fileGenRun read true rs fs (names.length + k) =
        order.map (fun f => JVal.str (readJs read (some f))) ++
          List.replicate k JVal.null := by
  refine ⟨fs.reverse, fs.reverse_perm.trans hperm, ?_⟩
  rw [← hperm.length_eq]
  exact fileGenRun_unique_eq read k fs rs

/-- Witness for C3: a 3-file directory `["a","b","c"]` with shuffled listing
`["b","c","a"]`, run for 3 + 2 calls. -/
theorem fileGen_unique_spec_witness :
    (["b", "c", "a"].Perm ["a", "b", "c"]) ∧
    ∃ order : List String, order.Perm ["a", "b", "c"] ∧
      fileGenRun (fun f => f) true (fun _ => 0) ["b", "c", "a"]
          (["a", "b", "c"].length + 2) =
        order.map (fun f => JVal.str (readJs (fun f => f) (some f))) ++
          List.replicate 2 JVal.null :=
  ⟨by decide,
    fileGen_unique_spec (fun f => f) ["a", "b", "c"] ["b", "c", "a"]
      (fun _ => 0) 2 (by decide)⟩

/-! ## The value generator registry -/

/-- `String.prototype.toLowerCase()`, modelled character-wise (adequate for
the ASCII kind names the dispatch compares against). -/
def jsToLower (s : String) : String := ⟨s.data.map Char.toLower⟩

/-- The variant of value generator produced by `createValueGenerator`, each
holding the options it was constructed with (`IdValueGenerator` takes none;
generators that also receive `valueTrackers` get them at generate time in
this model). -/
inductive VGen where
  | defaultG : JVal → VGen
  | nameG : JVal → VGen
  | idG : VGen
  | enumG : JVal → VGen
  | fileG : JVal → VGen
  | referenceG : JVal → VGen
  | joinG : JVal → VGen
  | copyG : JVal → VGen
  | csvG : JVal → VGen
  | javascriptG : JVal → VGen

/-- `createValueGenerator(name, options, valueTrackers)`: dispatch on
`name?.toLowerCase()`; an absent name or any name not matching a builtin kind
falls through to the `default` case. -/
def createValueGenerator (name : Option String) (options : JVal) : VGen :=
  match name with
  | none => .defaultG options
  | some s =>
    let n := jsToLower s
    if n = "name" then .nameG options
    else if n = "id" then .idG
    else if n = "enum" then .enumG options
    else if n = "file" then .fileG options
    else if n = "reference" then .referenceG options
    else if n = "ref" then .referenceG options
    else if n = "join" then .joinG options
    else if n = "copy" then .copyG options
    else if n = "csv" then .csvG options
    else if n = "javascript" then .javascriptG options
    else .defaultG options

/-- `DefaultValueGenerator.generate()`: returns the stored options verbatim. -/
def defaultGenerate (options : JVal) : JVal := options

/-- The builtin kind names recognized by `createValueGenerator` (lower case). -/
def builtinKinds : List String :=
  ["name", "id", "enum", "file", "reference", "ref", "join", "copy", "csv",
    "javascript"]

/-- C7: for every kind name that is not a builtin kind after case-insensitive
matching, and for an absent kind name, `createValueGenerator` returns the
default generator, whose `generate` returns the leaf's options verbatim on
every invocation (it is a total constant function, so it never fails). -/
theorem createValueGenerator_default (name : Option String) (options : JVal)
    (h : ∀ s, name = some s → jsToLower s ∉ builtinKinds) :
    createValueGenerator name options = .defaultG options ∧
      defaultGenerate options = options := by
  refine ⟨?_, rfl⟩
  cases name with
  | none => rfl
  | some s =>
    have hs := h s rfl
    simp only [builtinKinds, List.mem_cons, List.not_mem_nil, or_false,
      not_or] at hs
    obtain ⟨h1, h2, h3, h4, h5, h6, h7, h8, h9, h10⟩ := hs
    show (if jsToLower s = "name" then VGen.nameG options
      else if jsToLower s = "id" then VGen.idG
      else if jsToLower s = "enum" then VGen.enumG options
      else if jsToLower s = "file" then VGen.fileG options
      else if jsToLower s = "reference" then VGen.referenceG options
      else if jsToLower s = "ref" then VGen.referenceG options
      else if jsToLower s = "join" then VGen.joinG options
      else if jsToLower s = "copy" then VGen.copyG options
      else if jsToLower s = "csv" then VGen.csvG options
      else if jsToLower s = "javascript" then VGen.javascriptG options
      else VGen.defaultG options) = VGen.defaultG options
    rw [if_neg h1, if_neg h2, if_neg h3, if_neg h4, if_neg h5, if_neg h6,
      if_neg h7, if_neg h8, if_neg h9, if_neg h10]

/-- Witness for C7 at the unknown kind `"Bogus"` and options `"hello"`. -/
theorem createValueGenerator_default_witness :
    (∀ s, (some "Bogus" : Option String) = some s → jsToLower s ∉ builtinKinds) ∧
    (createValueGenerator (some "Bogus") (JVal.str "hello") =
        .defaultG (JVal.str "hello") ∧
      defaultGenerate (JVal.str "hello") = JVal.str "hello") :=
  ⟨fun s hs => by cases hs; decide,
    createValueGenerator_default (some "Bogus") (JVal.str "hello")
      (fun s hs => by cases hs; decide)⟩

/-! ## The template flattener -/

/-- The flattener's key construction `prev ? prev + "." + key : key`
(note that an empty `prev` string is falsy in JavaScript). -/
def mkKey (prev : Option String) (k : String) : String :=
  match prev with
  | some p => if p = "" then k else p ++ "." ++ k
  | none => k

mutual

/-- The body of `flatten`'s `step`: iterate the object's entries in order,
emitting leaves into the output in insertion order. -/
def flattenFields (prev : Option String) : List (String × JVal) → List (String × JVal)
  | [] => []
  | (k, v) :: rest => flattenEntry prev k v ++ flattenFields prev rest

/-- Processing of one entry by `flatten.step`: a value with a truthy
`generator` property is emitted as-is; a non-array object with at least one
key is recursed into; everything else (scalar, array, empty object) is
emitted as a leaf. -/
def flattenEntry (prev : Option String) (k : String) (v : JVal) : List (String × JVal) :=
  let newKey := mkKey prev k
  if hasTruthyGenerator v then [(newKey, v)]
  else
    match v with
    | .obj fields => if fields.isEmpty then [(newKey, v)] else flattenFields (some newKey) fields
    | _ => [(newKey, v)]

end

/-- `flatten(target)`: flatten a template document (given by its top-level
entry list) into dot-delimited leaf paths.  Duplicate produced keys do not
occur for the well-formed templates considered here, so the output object is
modelled as the insertion-ordered list of (path, leaf) pairs. -/
def flatten (fields : List (String × JVal)) : List (String × JVal) :=
  flattenFields none fields

/-- Counterexample to C4: the code tests `value?.generator` for *truthiness*,
not presence.  A node whose `generator` key holds the (falsy) empty string is
recursed into: flattening `{"a": {"generator": "", "b": {"c": 1}}}` yields
leaves at `a.generator` and `a.b.c`, and no leaf at `a`. -/
theorem flatten_falsy_generator_cex :
    flatten [("a", .obj [("generator", .str ""), ("b", .obj [("c", .num 1)])])] =
      [("a.generator", .str ""), ("a.b.c", .num 1)] ∧
    (flatten [("a", .obj [("generator", .str ""), ("b", .obj [("c", .num 1)])])]).lookup "a"
      = none :=
  ⟨rfl, rfl⟩

/-- C4 (amended): every node that is an object whose `generator` key holds a
*truthy* value is emitted by `flatten` as a single leaf at its own path and
is never recursed into, even when it contains nested objects; in particular
flattening `{"a": {"generator": "id"}}` yields exactly the one leaf `a`.
(Nodes whose `generator` value is falsy — absent, `null`, `false`, `0` or the
empty string — are not treated as generator leaves.) -/
theorem flatten_generator_leaf (prev : Option String)
    (pre post : List (String × JVal)) (k : String) (v : JVal)
    (hv : hasTruthyGenerator v = true) :
    flattenFields prev (pre ++ (k, v) :: post) =
      flattenFields prev pre ++ [(mkKey prev k, v)] ++ flattenFields prev post ∧
    flatten [("a", .obj [("generator", .str "id")])] =
      [("a", .obj [("generator", .str "id")])] := by
  refine ⟨?_, rfl⟩
  induction pre with
  | nil =>
    show flattenEntry prev k v ++ flattenFields prev post = _
    have he : flattenEntry prev k v = [(mkKey prev k, v)] := by
      cases v <;> simp [flattenEntry, hv]
    rw [he]
    simp [flattenFields]
  | cons hd tl ih =>
    obtain ⟨k', v'⟩ := hd
    show flattenEntry prev k' v' ++ flattenFields prev (tl ++ (k, v) :: post) = _
    rw [ih]
    have hc : flattenFields prev ((k', v') :: tl) =
        flattenEntry prev k' v' ++ flattenFields prev tl := rfl
    rw [hc]
    simp [List.append_assoc]

/-- Witness for C4's amended theorem: inserting the generator spec
`{"generator": "id"}` under key `g` between two plain leaves. -/
theorem flatten_generator_leaf_witness :
    (hasTruthyGenerator (.obj [("generator", .str "id")]) = true) ∧
    (flattenFields none
        ([("x", .num 1)] ++ ("g", .obj [("generator", .str "id")]) :: [("y", .num 2)]) =
      flattenFields none [("x", .num 1)] ++
        [(mkKey none "g", .obj [("generator", .str "id")])] ++
        flattenFields none [("y", .num 2)] ∧
      flatten [("a", .obj [("generator", .str "id")])] =
        [("a", .obj [("generator", .str "id")])]) :=
  ⟨rfl,
    flatten_generator_leaf none [("x", .num 1)] [("y", .num 2)] "g"
      (.obj [("generator", .str "id")]) rfl⟩

/-! ## Dependency discovery and the execution planner -/

/-- The value of field `k` of an options object when it is a string
(`none` models `undefined` or a non-string value; the dependency and
reference logic only ever compares these fields against strings). -/
def getStrField (v : JVal) (k : String) : Option String :=
  match getField v k with
  | some (.str s) => some s
  | _ => none

/-- `options?.generator?.toLowerCase() == "reference" ||
options?.generator?.toLowerCase() == "ref"`. -/
def isRefOptions (v : JVal) : Bool :=
  match getStrField v "generator" with
  | some s => jsToLower s == "reference" || jsToLower s == "ref"
  | none => false

/-- `this.options?.otherGenerator || this.options?.other`. -/
def refTarget (v : JVal) : Option String :=
  jsOr (getStrField v "otherGenerator") (getStrField v "other")

/-- `Map.prototype.set` on the dependencies map: overwrite in place when the
key exists (a JavaScript `Map` keeps the original insertion position),
otherwise append.  Keys and values are `Option String` because either side
of `dependencies.set(otherGenerator || other, property)` may be absent. -/
def mapSet : List (Option String × Option String) → Option String → Option String →
    List (Option String × Option String)
  | [], k, v => [(k, v)]
  | e :: rest, k, v => if e.1 = k then (k, v) :: rest else e :: mapSet rest k v

/-- The dependency discovery in the `Generator` constructor: scan the
flattened template entries in order and, for each reference/ref leaf,
perform `this.dependencies.set(options?.otherGenerator || options?.other,
options?.property)`. -/
def buildDeps (flatTemplate : List (String × JVal)) :
    List (Option String × Option String) :=
  flatTemplate.foldl
    (fun acc kv =>
      if isRefOptions kv.2 then mapSet acc (refTarget kv.2) (getStrField kv.2 "property")
      else acc) []

/-- The planner-relevant projection of the `Generator` class: its `name`,
`iterations` and `dependencies` map (the flat template and per-leaf value
generator instances play no role in `executionOrder`). -/
structure Generator where
  name : String
  iterations : ℕ
  dependencies : List (Option String × Option String)
  deriving DecidableEq

/-- Construction of a `Generator` from a template: flatten it and collect
the reference dependencies. -/
def mkGenerator (name : String) (iterations : ℕ)
    (template : List (String × JVal)) : Generator :=
  ⟨name, iterations, buildDeps (flatten template)⟩

/-- The placement test of `executionOrder`: `generator.dependencies.size == 0
|| [...generator.dependencies.keys()].every(d => sortedGenerators.some(g =>
g.name == d))`. -/
def depsSatisfied (sortedGenerators : List Generator) (g : Generator) : Bool :=
  g.dependencies.isEmpty ||
    (g.dependencies.map Prod.fst).all
      (fun d => sortedGenerators.any (fun g2 => some g2.name == d))

/-- One scan of the inner `for` loop of `executionOrder`: find the first
generator satisfying `p`, returning it and the remaining list
(`generators.splice(i, 1)`). -/
def extractFirst (p : Generator → Bool) :
    List Generator → Option (Generator × List Generator)
  | [] => none
  | g :: gs =>
    if p g then some (g, gs)
    else
      match extractFirst p gs with
      | some (g', rest) => some (g', g :: rest)
      | none => none

/-- The `while` loop of `executionOrder`, with explicit fuel (the loop runs
at most `generators.length` times because each successful scan removes one
generator; exhausted fuel behaves like the unmet-dependency fallback, which
is unreachable when starting with `fuel = generators.length`).  Returns the
sorted list together with the emitted `console.warn` diagnostics, one per
unresolved generator, carrying its name and dependencies map. -/
def executionOrderAux :
    ℕ → List Generator → List Generator →
      List Generator × List (String × List (Option String × Option String))
  | 0, sortedGenerators, generators =>
    (sortedGenerators ++ generators, generators.map (fun g => (g.name, g.dependencies)))
  | fuel + 1, sortedGenerators, generators =>
    match generators with
    | [] => (sortedGenerators, [])
    | _ :: _ =>
      match extractFirst (depsSatisfied sortedGenerators) generators with
      | some (g, rest) => executionOrderAux fuel (sortedGenerators ++ [g]) rest
      | none =>
        (sortedGenerators ++ generators,
          generators.map (fun g => (g.name, g.dependencies)))

/-- `executionOrder(generators)`: the dependency-respecting order, plus the
diagnostics emitted along the way. -/
def executionOrder (generators : List Generator) :
    List Generator × List (String × List (Option String × Option String)) :=
  executionOrderAux generators.length [] generators

theorem extractFirst_some (p : Generator → Bool) :
    ∀ (l : List Generator) (g : Generator) (rest : List Generator),
      extractFirst p l = some (g, rest) →
      p g = true ∧ rest.Sublist l ∧ l.Perm (g :: rest) := by
  intro l
  induction l with
  | nil => intro g rest h; simp [extractFirst] at h
  | cons hd tl ih =>
    intro g rest h
    by_cases hp : p hd = true
    · rw [extractFirst, if_pos hp] at h
      simp only [Option.some.injEq, Prod.mk.injEq] at h
      obtain ⟨rfl, rfl⟩ := h
      exact ⟨hp, List.sublist_cons_self hd tl, List.Perm.refl _⟩
    · rw [extractFirst, if_neg hp] at h
      cases he : extractFirst p tl with
      | none => rw [he] at h; simp at h
      | some pr =>
        obtain ⟨g', rest'⟩ := pr
        rw [he] at h
        simp only [Option.some.injEq, Prod.mk.injEq] at h
        obtain ⟨rfl, rfl⟩ := h
        obtain ⟨hpg, hsub, hperm⟩ := ih g' rest' he
        exact ⟨hpg, hsub.cons₂ hd,
          (hperm.cons hd).trans (List.Perm.swap g' hd rest')⟩

theorem extractFirst_none (p : Generator → Bool) :
    ∀ (l : List Generator), extractFirst p l = none → ∀ x ∈ l, p x = false := by
  intro l
  induction l with
  | nil => intro _ x hx; simp at hx
  | cons hd tl ih =>
    intro h x hx
    by_cases hp : p hd = true
    · rw [extractFirst, if_pos hp] at h; simp at h
    · rw [extractFirst, if_neg hp] at h
      rcases List.mem_cons.mp hx with rfl | hx
      · simpa using hp
      · cases he : extractFirst p tl with
        | none => exact ih he x hx
        | some pr => rw [he] at h; simp at h

theorem executionOrderAux_total :
    ∀ (fuel : ℕ) (sortedGenerators generators : List Generator),
      ∃ rem : List Generator,
        rem.Sublist generators ∧
        (executionOrderAux fuel sortedGenerators generators).2 =
          rem.map (fun g => (g.name, g.dependencies)) ∧
        (∃ pre, (executionOrderAux fuel sortedGenerators generators).1 = pre ++ rem) ∧
        (executionOrderAux fuel sortedGenerators generators).1.Perm
          (sortedGenerators ++ generators) := by
  intro fuel
  induction fuel with
  | zero =>
    intro sorted gens
    exact ⟨gens, List.Sublist.refl _, rfl, ⟨sorted, rfl⟩, List.Perm.refl _⟩
  | succ fuel ih =>
    intro sorted gens
    cases gens with
    | nil =>
      exact ⟨[], List.Sublist.refl _, rfl, ⟨sorted, by simp [executionOrderAux]⟩,
        by simp [executionOrderAux]⟩
    | cons hd tl =>
      cases he : extractFirst (depsSatisfied sorted) (hd :: tl) with
      | some pr =>
        obtain ⟨g, rest⟩ := pr
        have hstep : executionOrderAux (fuel + 1) sorted (hd :: tl) =
            executionOrderAux fuel (sorted ++ [g]) rest := by
          rw [executionOrderAux, he]
        obtain ⟨hpg, hsub, hperm⟩ := extractFirst_some _ _ _ _ he
        obtain ⟨rem, hrs, hw, ⟨pre, hpre⟩, hp⟩ := ih (sorted ++ [g]) rest
        refine ⟨rem, hrs.trans hsub, ?_, ⟨pre, ?_⟩, ?_⟩
        · rw [hstep]; exact hw
        · rw [hstep]; exact hpre
        · rw [hstep]
          refine hp.trans ?_
          have h1 : sorted ++ [g] ++ rest = sorted ++ (g :: rest) := by simp
          rw [h1]
          exact (hperm.symm).append_left sorted
      | none =>
        have hstep : executionOrderAux (fuel + 1) sorted (hd :: tl) =
            (sorted ++ (hd :: tl), (hd :: tl).map (fun g => (g.name, g.dependencies))) := by
          rw [executionOrderAux, he]
        exact ⟨hd :: tl, List.Sublist.refl _, by rw [hstep], ⟨sorted, by rw [hstep]⟩,
          by rw [hstep]⟩

/-- C6: for every input list, `executionOrder` never aborts: its result is a
permutation of the input (every generator is scheduled); the unresolved
generators — those a full failed scan leaves over — are appended at the end
in their original relative order (a sublist of the input), and exactly one
diagnostic is emitted per unresolved generator, carrying its name and its
dependencies map (which lists its unmet dependencies). -/
theorem executionOrder_total (generators : List Generator) :
    ∃ rem : List Generator,
      rem.Sublist generators ∧
      (executionOrder generators).2 =
        rem.map (fun g => (g.name, g.dependencies)) ∧
      (∃ pre, (executionOrder generators).1 = pre ++ rem) ∧
      (executionOrder generators).1.Perm generators := by
  obtain ⟨rem, h1, h2, h3, h4⟩ :=
    executionOrderAux_total generators.length [] generators
  exact ⟨rem, h1, h2, h3, by simpa using h4⟩

/-- Every generator in the list has each of its dependency keys matched by
the name of some generator placed strictly before it. -/
def RespectsDeps (l : List Generator) : Prop :=
  ∀ xs g ys, l = xs ++ g :: ys → ∀ d ∈ g.dependencies.map Prod.fst,
    d ∈ xs.map (fun h => some h.name)

theorem depsSatisfied_names {sorted : List Generator} {g : Generator}
    (h : depsSatisfied sorted g = true) :
    ∀ d ∈ g.dependencies.map Prod.fst, d ∈ sorted.map (fun h => some h.name) := by
  intro d hd
  rw [depsSatisfied, Bool.or_eq_true] at h
  rcases h with h | h
  · rw [List.isEmpty_iff] at h
    rw [h] at hd
    simp at hd
  · rw [List.all_eq_true] at h
    have := h d hd
    rw [List.any_eq_true] at this
    obtain ⟨g2, hg2, hbeq⟩ := this
    rw [beq_iff_eq] at hbeq
    exact List.mem_map.mpr ⟨g2, hg2, hbeq⟩

theorem respectsDeps_append {l : List Generator} {g : Generator}
    (hl : RespectsDeps l)
    (hg : ∀ d ∈ g.dependencies.map Prod.fst, d ∈ l.map (fun h => some h.name)) :
    RespectsDeps (l ++ [g]) := by
  intro xs g'' ys heq d hd
  rcases List.eq_nil_or_concat ys with rfl | ⟨ys', y, rfl⟩
  · obtain ⟨rfl, hg''⟩ := List.append_inj' heq (by simp)
    obtain rfl : g = g'' := by simpa using hg''
    exact hg d hd
  · have heq' : l ++ [g] = (xs ++ g'' :: ys') ++ [y] := by
      rw [heq]; simp
    obtain ⟨hl', _⟩ := List.append_inj' heq' (by simp)
    exact hl xs g'' ys' hl' d hd

theorem exists_min_rank (f : Generator → ℕ) :
    ∀ (l : List Generator), l ≠ [] → ∃ x ∈ l, ∀ y ∈ l, f x ≤ f y := by
  intro l
  induction l with
  | nil => intro h; exact absurd rfl h
  | cons hd tl ih =>
    intro _
    cases tl with
    | nil => exact ⟨hd, by simp, by intro y hy; simp at hy; rw [hy]⟩
    | cons hd' tl' =>
      obtain ⟨x, hx, hmin⟩ := ih (by simp)
      by_cases hc : f hd ≤ f x
      · refine ⟨hd, by simp, ?_⟩
        intro y hy
        rcases List.mem_cons.mp hy with rfl | hy
        · exact le_refl _
        · exact hc.trans (hmin y hy)
      · refine ⟨x, List.mem_cons_of_mem hd hx, ?_⟩
        intro y hy
        rcases List.mem_cons.mp hy with rfl | hy
        · exact le_of_not_le hc
        · exact hmin y hy

theorem executionOrderAux_sorted (rank : Option String → ℕ) :
    ∀ (fuel : ℕ) (sorted gens : List Generator),
      gens.length ≤ fuel →
      (∀ g ∈ gens, ∀ d ∈ g.dependencies.map Prod.fst,
        (∃ g' ∈ sorted, some g'.name = d) ∨ (∃ g' ∈ gens, some g'.name = d)) →
      (∀ g ∈ gens, ∀ d ∈ g.dependencies.map Prod.fst,
        rank d < rank (some g.name)) →
      RespectsDeps sorted →
      (executionOrderAux fuel sorted gens).1.Perm (sorted ++ gens) ∧
        RespectsDeps (executionOrderAux fuel sorted gens).1 := by
  intro fuel
  induction fuel with
  | zero =>
    intro sorted gens hlen _ _ hresp
    obtain rfl : gens = [] := List.eq_nil_of_length_eq_zero (by omega)
    exact ⟨by simp [executionOrderAux], by simpa [executionOrderAux] using hresp⟩
  | succ fuel ih =>
    intro sorted gens hlen hpres hrank hresp
    cases gens with
    | nil =>
      exact ⟨by simp [executionOrderAux], by simpa [executionOrderAux] using hresp⟩
    | cons hd tl =>
      obtain ⟨x, hx, hmin⟩ :=
        exists_min_rank (fun g => rank (some g.name)) (hd :: tl) (by simp)
      have hsat : depsSatisfied sorted x = true := by
        have hall : ∀ d ∈ x.dependencies.map Prod.fst,
            ∃ g' ∈ sorted, some g'.name = d := by
          intro d hd'
          rcases hpres x hx d hd' with h | ⟨g', hg', he⟩
          · exact h
          · exfalso
            have h1 : rank d < rank (some x.name) := hrank x hx d hd'
            have h2 : rank (some x.name) ≤ rank (some g'.name) := hmin g' hg'
            rw [he] at h2
            omega
        rw [depsSatisfied, Bool.or_eq_true]
        right
        rw [List.all_eq_true]
        intro d hd'
        obtain ⟨g', hg', he⟩ := hall d hd'
        rw [List.any_eq_true]
        exact ⟨g', hg', beq_iff_eq.mpr he⟩
      cases he : extractFirst (depsSatisfied sorted) (hd :: tl) with
      | none =>
        have := extractFirst_none _ _ he x hx
        rw [hsat] at this
        exact absurd this (by simp)
      | some pr =>
        obtain ⟨g, rest⟩ := pr
        have hstep : executionOrderAux (fuel + 1) sorted (hd :: tl) =
            executionOrderAux fuel (sorted ++ [g]) rest := by
          rw [executionOrderAux, he]
        obtain ⟨hpg, _, hperm⟩ := extractFirst_some _ _ _ _ he
        have hlen' : rest.length ≤ fuel := by
          have := hperm.length_eq
          simp at this hlen
          omega
        have hpres' : ∀ g'' ∈ rest, ∀ d ∈ g''.dependencies.map Prod.fst,
            (∃ g' ∈ sorted ++ [g], some g'.name = d) ∨
            (∃ g' ∈ rest, some g'.name = d) := by
          intro g'' hg'' d hd''
          have hmem : g'' ∈ hd :: tl :=
            hperm.symm.subset (List.mem_cons_of_mem g hg'')
          rcases hpres g'' hmem d hd'' with ⟨g', hg', he'⟩ | ⟨g', hg', he'⟩
          · exact Or.inl ⟨g', List.mem_append_left _ hg', he'⟩
          · have : g' ∈ g :: rest := hperm.subset hg'
            rcases List.mem_cons.mp this with rfl | hrest
            · exact Or.inl ⟨g', List.mem_append_right _ (by simp), he'⟩
            · exact Or.inr ⟨g', hrest, he'⟩
        have hrank' : ∀ g'' ∈ rest, ∀ d ∈ g''.dependencies.map Prod.fst,
            rank d < rank (some g''.name) := by
          intro g'' hg'' d hd''
          exact hrank g'' (hperm.symm.subset (List.mem_cons_of_mem g hg'')) d hd''
        have hresp' : RespectsDeps (sorted ++ [g]) :=
          respectsDeps_append hresp (depsSatisfied_names hpg)
        obtain ⟨hp, hr⟩ := ih (sorted ++ [g]) rest hlen' hpres' hrank' hresp'
        rw [hstep]
        refine ⟨hp.trans ?_, hr⟩
        have h1 : sorted ++ [g] ++ rest = sorted ++ (g :: rest) := by simp
        rw [h1]
        exact (hperm.symm).append_left sorted

/-- Template `A`: a single `id` generator leaf, no dependencies. -/
def templateA : List (String × JVal) :=
  [("id", .obj [("generator", .str "Id")])]

/-- Template `B`: one reference leaf depending on producer `A`. -/
def templateB : List (String × JVal) :=
  [("a", .obj [("generator", .str "Ref"), ("other", .str "A"),
    ("property", .str "id")])]

/-- Template `C`: one reference leaf depending on producer `B`. -/
def templateC : List (String × JVal) :=
  [("b", .obj [("generator", .str "reference"), ("otherGenerator", .str "B"),
    ("property", .str "a")])]

def genA : Generator := mkGenerator "A" 1 templateA

def genB : Generator := mkGenerator "B" 1 templateB

def genC : Generator := mkGenerator "C" 1 templateC

/-- C2: for every input list of generators with distinct names in which every
dependency key names a producer present in the list and no dependency cycle
exists (witnessed by a rank function that decreases along dependency edges),
`executionOrder` returns a permutation of the input in which each generator
appears after all generators whose name is a key of its dependency map (its
dependency keys all occur among earlier names and never at or after its own
position); and on templates A (no deps), B (depends on A), C (depends on B)
given in declaration order [C, B, A], the planner returns [A, B, C] with no
diagnostics, placing the earliest placeable candidate first at each scan. -/
theorem executionOrder_topological :
    (∀ gens : List Generator,
      (gens.map Generator.name).Nodup →
      (∀ g ∈ gens, ∀ d ∈ g.dependencies.map Prod.fst,
        ∃ g' ∈ gens, some g'.name = d) →
      (∃ rank : Option String → ℕ, ∀ g ∈ gens,
        ∀ d ∈ g.dependencies.map Prod.fst, rank d < rank (some g.name)) →
      (executionOrder gens).1.Perm gens ∧
      (∀ xs g ys, (executionOrder gens).1 = xs ++ g :: ys →
        ∀ d ∈ g.dependencies.map Prod.fst,
          d ∈ xs.map (fun h => some h.name) ∧
          d ∉ (g :: ys).map (fun h => some h.name))) ∧
    executionOrder [genC, genB, genA] = ([genA, genB, genC], []) := by
  constructor
  · intro gens hnodup hpres ⟨rank, hrank⟩
    obtain ⟨hperm, hresp⟩ := executionOrderAux_sorted rank gens.length [] gens
      (le_refl _) (fun g hg d hd => Or.inr (hpres g hg d hd))
      hrank (by intro xs g ys h d hd; simp at h)
    rw [List.nil_append] at hperm
    refine ⟨hperm, ?_⟩
    intro xs g ys hsplit d hd
    refine ⟨hresp xs g ys hsplit d hd, ?_⟩
    intro hmem
    obtain ⟨h', hh', he'⟩ := List.mem_map.mp (hresp xs g ys hsplit d hd)
    obtain ⟨h, hh, he⟩ := List.mem_map.mp hmem
    have hnames : ((xs ++ g :: ys).map Generator.name).Nodup := by
      rw [← hsplit]
      exact ((hperm.map Generator.name).nodup_iff).mpr hnodup
    rw [List.map_append, List.nodup_append] at hnames
    obtain ⟨_, _, hdisj⟩ := hnames
    have hname_eq : h'.name = h.name := by
      have := he'.trans he.symm
      simpa using this
    exact hdisj (List.mem_map_of_mem Generator.name hh')
      (hname_eq ▸ List.mem_map_of_mem Generator.name hh)
  · rfl

/-- Witness for C2's general part: the three-template instance [C, B, A]
with rank A ↦ 0, B ↦ 1, C ↦ 2 satisfies the hypotheses, and the planner
output is a permutation of the input. -/
theorem executionOrder_topological_witness :
    (([genC, genB, genA].map Generator.name).Nodup ∧
      (∀ g ∈ [genC, genB, genA], ∀ d ∈ g.dependencies.map Prod.fst,
        ∃ g' ∈ [genC, genB, genA], some g'.name = d)) ∧
    (executionOrder [genC, genB, genA]).1.Perm [genC, genB, genA] :=
  ⟨⟨by decide, by decide⟩,
    ((executionOrder_topological.1 [genC, genB, genA] (by decide) (by decide)
      ⟨fun d => if d = some "A" then 0 else if d = some "B" then 1 else 2,
        by decide⟩)).1⟩

/-! ## Dependency registration and tracking (C10) -/

/-- `main`'s creation of a missing tracker:
`if (!valueTrackers.has(key)) valueTrackers.set(key, new ValueTracker())`. -/
def trackersEnsure (tr : Trackers) (k : Option String) : Trackers :=
  if (tr.lookup k).isSome then tr else tr ++ [(k, [])]

/-- `valueTrackers.get(key)?.track(value)`: update the tracker stored at `k`
in place. -/
def trackersTrack (tr : Trackers) (k p : Option String) : Trackers :=
  tr.map (fun e => if e.1 = k then (e.1, vtTrack e.2 p) else e)

/-- The registration loop in `main`: for each `[key, value]` of a generator's
dependencies map, create the producer's tracker when absent and `track` the
property path. -/
def registerDeps (deps : List (Option String × Option String)) (tr : Trackers) :
    Trackers :=
  deps.foldl (fun tr kv => trackersTrack (trackersEnsure tr kv.1) kv.1 kv.2) tr

/-- The guarded tracking step in `Generator.generate`:
`if (valueTracker?.tracks(key)) valueTracker.add(key, value)`. -/
def trackedAdd (vt : VTracker) (p : Option String) (v : JVal) : VTracker :=
  if vtTracks vt p then vtAdd vt p v else vt

/-- The effect of generating one record (or any number of leaf values) on a
producer's tracker: the guarded add for each produced (key, value) pair. -/
def applyRecord (vt : VTracker) (kvs : List (Option String × JVal)) : VTracker :=
  kvs.foldl (fun a kv => trackedAdd a kv.1 kv.2) vt

/-- A reference leaf spec naming producer `p` (via `other`) with property
path `x`. -/
def mkRefSpec (p x : String) : JVal :=
  .obj [("generator", .str "ref"), ("other", .str p), ("property", .str x)]

theorem lookup_mapSet_self (m : List (Option String × Option String))
    (k v : Option String) : (mapSet m k v).lookup k = some v := by
  induction m with
  | nil => simp [mapSet, List.lookup]
  | cons e rest ih =>
    by_cases h : e.1 = k
    · rw [mapSet, if_pos h]
      simp [List.lookup]
    · rw [mapSet, if_neg h]
      rw [List.lookup]
      have : (k == e.1) = false := by
        rw [beq_eq_false_iff_ne]
        exact fun hk => h hk.symm
      rw [this]
      exact ih

theorem lookup_mapSet_ne (m : List (Option String × Option String))
    (k v k' : Option String) (h : k' ≠ k) :
    (mapSet m k v).lookup k' = m.lookup k' := by
  induction m with
  | nil =>
    have hb : (k' == k) = false := by rw [beq_eq_false_iff_ne]; exact h
    simp [mapSet, List.lookup, hb]
  | cons e rest ih =>
    by_cases he : e.1 = k
    · rw [mapSet, if_pos he]
      rw [List.lookup, List.lookup]
      have h1 : (k' == k) = false := by rw [beq_eq_false_iff_ne]; exact h
      have h2 : (k' == e.1) = false := by
        rw [beq_eq_false_iff_ne]; rw [he]; exact h
      rw [h1, h2]
    · rw [mapSet, if_neg he]
      rw [List.lookup, List.lookup]
      cases hbe : (k' == e.1) with
      | true => rfl
      | false => exact ih

theorem mem_keys_mapSet (m : List (Option String × Option String))
    (k v a : Option String) :
    a ∈ (mapSet m k v).map Prod.fst ↔ a = k ∨ a ∈ m.map Prod.fst := by
  induction m with
  | nil => simp [mapSet]
  | cons e rest ih =>
    by_cases he : e.1 = k
    · rw [mapSet, if_pos he]
      simp [he]
    · rw [mapSet, if_neg he]
      simp [ih]
      tauto

theorem keys_nodup_mapSet (m : List (Option String × Option String))
    (k v : Option String) (h : (m.map Prod.fst).Nodup) :
    ((mapSet m k v).map Prod.fst).Nodup := by
  induction m with
  | nil => simp [mapSet]
  | cons e rest ih =>
    rw [List.map_cons, List.nodup_cons] at h
    obtain ⟨he, hrest⟩ := h
    by_cases hek : e.1 = k
    · rw [mapSet, if_pos hek]
      rw [List.map_cons, List.nodup_cons]
      exact ⟨by rw [← hek]; exact he, hrest⟩
    · rw [mapSet, if_neg hek]
      rw [List.map_cons, List.nodup_cons]
      refine ⟨?_, ih hrest⟩
      rw [mem_keys_mapSet]
      rintro (h | h)
      · exact hek h
      · exact he h

theorem buildDeps_keys_nodup (fields : List (String × JVal)) :
    ((buildDeps fields).map Prod.fst).Nodup := by
  suffices h : ∀ (l : List (String × JVal)) (init : List (Option String × Option String)),
      (init.map Prod.fst).Nodup →
      ((l.foldl (fun acc kv =>
        if isRefOptions kv.2 then mapSet acc (refTarget kv.2) (getStrField kv.2 "property")
        else acc) init).map Prod.fst).Nodup by
    exact h fields [] (by simp)
  intro l
  induction l with
  | nil => intro init h; exact h
  | cons hd tl ih =>
    intro init h
    rw [List.foldl_cons]
    by_cases hr : isRefOptions hd.2
    · rw [if_pos hr]
      exact ih _ (keys_nodup_mapSet _ _ _ h)
    · rw [if_neg hr]
      exact ih _ h

theorem lookup_some_mem {α β : Type} [BEq α] [LawfulBEq α] :
    ∀ (l : List (α × β)) (k : α) (v : β), l.lookup k = some v → (k, v) ∈ l := by
  intro l
  induction l with
  | nil => intro k v h; simp [List.lookup] at h
  | cons e rest ih =>
    intro k v h
    rw [List.lookup] at h
    cases hbe : (k == e.1) with
    | true =>
      rw [hbe] at h
      obtain rfl : e.2 = v := by injection h
      obtain rfl : k = e.1 := eq_of_beq hbe
      exact List.mem_cons_self _ _
    | false =>
      rw [hbe] at h
      exact List.mem_cons_of_mem _ (ih k v h)

theorem lookup_append {α β : Type} [BEq α] :
    ∀ (l l₂ : List (α × β)) (k : α),
      (l ++ l₂).lookup k =
        match l.lookup k with
        | some v => some v
        | none => l₂.lookup k := by
  intro l l₂
  induction l with
  | nil => intro k; rfl
  | cons e rest ih =>
    intro k
    rw [List.cons_append, List.lookup, List.lookup]
    cases hbe : (k == e.1) with
    | true => rfl
    | false => exact ih k

theorem lookup_map_update_ne {α β : Type} [BEq α] [LawfulBEq α] [DecidableEq α]
    (f : β → β) :
    ∀ (l : List (α × β)) (k k' : α), k' ≠ k →
      (l.map (fun e => if e.1 = k then (e.1, f e.2) else e)).lookup k' =
        l.lookup k' := by
  intro l
  induction l with
  | nil => intro k k' _; rfl
  | cons e rest ih =>
    intro k k' hne
    by_cases he : e.1 = k
    · rw [List.map_cons, if_pos he, List.lookup, List.lookup]
      cases hbe : (k' == e.1) with
      | true =>
        exfalso
        exact hne ((eq_of_beq hbe).trans he)
      | false => exact ih k k' hne
    · rw [List.map_cons, if_neg he, List.lookup, List.lookup]
      cases hbe : (k' == e.1) with
      | true => rfl
      | false => exact ih k k' hne

theorem lookup_map_update_self {α β : Type} [BEq α] [LawfulBEq α] [DecidableEq α]
    (f : β → β) :
    ∀ (l : List (α × β)) (k : α) (v : β), l.lookup k = some v →
      (l.map (fun e => if e.1 = k then (e.1, f e.2) else e)).lookup k =
        some (f v) := by
  intro l
  induction l with
  | nil => intro k v h; simp [List.lookup] at h
  | cons e rest ih =>
    intro k v h
    rw [List.lookup] at h
    cases hbe : (k == e.1) with
    | true =>
      rw [hbe] at h
      obtain rfl : e.2 = v := by injection h
      have he : e.1 = k := (eq_of_beq hbe).symm
      rw [List.map_cons, if_pos he, List.lookup, hbe]
    | false =>
      rw [hbe] at h
      have he : ¬(e.1 = k) := fun hh => by
        rw [beq_iff_eq.mpr hh.symm] at hbe
        exact absurd hbe (by decide)
      rw [List.map_cons, if_neg he, List.lookup, hbe]
      exact ih k v h

theorem lookup_trackersEnsure_ne (tr : Trackers) (k k' : Option String)
    (h : k' ≠ k) : (trackersEnsure tr k).lookup k' = tr.lookup k' := by
  unfold trackersEnsure
  by_cases hs : (tr.lookup k).isSome = true
  · rw [if_pos hs]
  · rw [if_neg hs, lookup_append]
    cases ht : tr.lookup k' with
    | some v => rfl
    | none =>
      have hb : (k' == k) = false := by rw [beq_eq_false_iff_ne]; exact h
      simp [List.lookup, hb]

theorem lookup_trackersEnsure_none (tr : Trackers) (k : Option String)
    (h : tr.lookup k = none) : (trackersEnsure tr k).lookup k = some [] := by
  unfold trackersEnsure
  rw [if_neg (by rw [h]; simp), lookup_append, h]
  simp [List.lookup]

theorem registerDeps_lookup_notmem :
    ∀ (deps : List (Option String × Option String)) (tr : Trackers)
      (k : Option String), k ∉ deps.map Prod.fst →
      (registerDeps deps tr).lookup k = tr.lookup k := by
  intro deps
  induction deps with
  | nil => intro tr k _; rfl
  | cons e rest ih =>
    intro tr k hk
    simp only [List.map_cons, List.mem_cons, not_or] at hk
    obtain ⟨h1, h2⟩ := hk
    have hr : registerDeps (e :: rest) tr =
        registerDeps rest (trackersTrack (trackersEnsure tr e.1) e.1 e.2) := rfl
    rw [hr, ih _ k h2]
    have ht := lookup_map_update_ne (fun b => vtTrack b e.2)
      (trackersEnsure tr e.1) e.1 k h1
    exact ht.trans (lookup_trackersEnsure_ne _ _ _ h1)

theorem registerDeps_lookup_mem :
    ∀ (deps : List (Option String × Option String)) (tr : Trackers)
      (k v : Option String), (deps.map Prod.fst).Nodup → (k, v) ∈ deps →
      tr.lookup k = none →
      (registerDeps deps tr).lookup k = some [(v, [])] := by
  intro deps
  induction deps with
  | nil => intro tr k v _ hm _; simp at hm
  | cons e rest ih =>
    intro tr k v hnd hm hnone
    rw [List.map_cons, List.nodup_cons] at hnd
    obtain ⟨hke, hrest⟩ := hnd
    have hr : registerDeps (e :: rest) tr =
        registerDeps rest (trackersTrack (trackersEnsure tr e.1) e.1 e.2) := rfl
    rcases List.mem_cons.mp hm with heq | hmem
    · obtain rfl : e = (k, v) := heq.symm
      rw [hr]
      have h1 : (trackersEnsure tr k).lookup k = some [] :=
        lookup_trackersEnsure_none tr k hnone
      have h2 := lookup_map_update_self (fun b => vtTrack b v)
        (trackersEnsure tr k) k [] h1
      rw [registerDeps_lookup_notmem rest _ k hke]
      exact h2
    · have hkrest : k ∈ rest.map Prod.fst :=
        List.mem_map.mpr ⟨(k, v), hmem, rfl⟩
      have hne : k ≠ e.1 := fun h => hke (h ▸ hkrest)
      rw [hr]
      apply ih _ k v hrest hmem
      have ht := lookup_map_update_ne (fun b => vtTrack b e.2)
        (trackersEnsure tr e.1) e.1 k hne
      exact ht.trans ((lookup_trackersEnsure_ne _ _ _ hne).trans hnone)

theorem vtTracks_trackedAdd (vt : VTracker) (p p' : Option String) (v : JVal)
    (h : vtTracks vt p = false) : vtTracks (trackedAdd vt p' v) p = false := by
  unfold trackedAdd
  by_cases hp' : vtTracks vt p' = true
  · rw [if_pos hp']
    unfold vtAdd
    have hs : (vt.lookup p').isSome = true := hp'
    rw [if_pos hs]
    have hne : p ≠ p' := by
      intro he
      rw [he, hp'] at h
      exact absurd h (by decide)
    unfold vtTracks at h ⊢
    have ht := lookup_map_update_ne (fun b => b ++ [v]) vt p' p hne
    rw [ht]
    exact h
  · rw [if_neg hp']
    exact h

theorem vtTracks_applyRecord (kvs : List (Option String × JVal)) :
    ∀ (vt : VTracker) (p : Option String), vtTracks vt p = false →
      vtTracks (applyRecord vt kvs) p = false := by
  induction kvs with
  | nil => intro vt p h; exact h
  | cons kv rest ih =>
    intro vt p h
    have hr : applyRecord vt (kv :: rest) =
        applyRecord (trackedAdd vt kv.1 kv.2) rest := rfl
    rw [hr]
    exact ih _ p (vtTracks_trackedAdd vt p kv.1 kv.2 h)

theorem refGenerate_untracked (tr : Trackers) (P : String) (x : Option String)
    (vt : VTracker) (r : ℚ) (h1 : tr.lookup (some P) = some vt)
    (h2 : vtTracks vt x = false) :
    refGenerate tr none (some P) x r = JVal.null := by
  have hl : refLookup tr none (some P) x = none := by
    rw [refLookup]
    have hj : jsOr none (some P) = some P := rfl
    rw [hj, h1]
    unfold vtTracks at h2
    cases hvx : vt.lookup x with
    | some vs => rw [hvx] at h2; simp at h2
    | none => simpa using hvx
  rw [refGenerate, hl]

theorem foldl_zip_snd {α β γ : Type} (f : γ → β → γ) :
    ∀ (ks : List α) (vs : List β) (init : γ), ks.length = vs.length →
      (ks.zip vs).foldl (fun a kv => f a kv.2) init = vs.foldl f init := by
  intro ks
  induction ks with
  | nil =>
    intro vs init h
    obtain rfl : vs = [] := List.eq_nil_of_length_eq_zero h.symm
    rfl
  | cons k ks ih =>
    intro vs init h
    cases vs with
    | nil => simp at h
    | cons v vs =>
      rw [List.zip_cons_cons, List.foldl_cons, List.foldl_cons]
      exact ih vs (f init v) (by simpa using h)

theorem buildDeps_refSpecs (ks : List String) (specs : List (String × String))
    (h : ks.length = specs.length) :
    buildDeps (ks.zip (specs.map (fun pr => mkRefSpec pr.1 pr.2))) =
      specs.foldl (fun acc pr => mapSet acc (some pr.1) (some pr.2)) [] := by
  have hz := foldl_zip_snd
    (fun acc (v : JVal) =>
      if isRefOptions v then mapSet acc (refTarget v) (getStrField v "property")
      else acc)
    ks (specs.map (fun pr => mkRefSpec pr.1 pr.2)) [] (by simpa using h)
  rw [buildDeps, hz, List.foldl_map]
  apply List.foldl_ext
  intro acc pr _
  rfl

theorem foldl_mapSet_lookup_last (P : String) :
    ∀ (specs : List (String × String)) (init : List (Option String × Option String)),
      (specs.foldl (fun acc pr => mapSet acc (some pr.1) (some pr.2)) init).lookup
          (some P) =
        match (specs.filter (fun pr => pr.1 = P)).getLast? with
        | some pr => some (some pr.2)
        | none => init.lookup (some P) := by
  intro specs
  induction specs using List.reverseRecOn with
  | nil => intro init; rfl
  | append_singleton l pr ih =>
    intro init
    rw [List.foldl_append, List.foldl_cons, List.foldl_nil, List.filter_append]
    by_cases hp : pr.1 = P
    · have hf : List.filter (fun pr => decide (pr.1 = P)) [pr] = [pr] := by
        simp [List.filter_cons, hp]
      rw [hf, List.getLast?_concat, hp, lookup_mapSet_self]
    · have hf : List.filter (fun pr => decide (pr.1 = P)) [pr] = [] := by
        simp [List.filter_cons, hp]
      rw [hf, List.append_nil,
        lookup_mapSet_ne _ _ _ _ (by simp [Ne, eq_comm]; exact fun hh => hp hh.symm)]
      exact ih init

/-- C10: the `Generator` dependency registry is a map keyed by producer name,
written once per reference leaf in flattened order, so it holds at most one
property path per producer: for a template whose reference leaves name
producers/paths `specs` (with `(P, x)` an earlier reference to `P` and
`(P, y)` the last one, `x ≠ y`), only `y` is registered for `P` and only `y`
is tracked after `main`'s registration; `x` is never tracked — `Generator.
generate`'s guarded adds never create a tracked entry — and the reference
leaf for `(P, x)` yields the null-equivalent value `null` in every record,
for every random outcome. -/
theorem generator_deps_last_wins
    (ks : List String) (specs : List (String × String)) (P x y : String)
    (r : ℚ) (hlen : ks.length = specs.length) (_hx : (P, x) ∈ specs)
    (hy : (specs.filter (fun pr => pr.1 = P)).getLast? = some (P, y))
    (hxy : x ≠ y) :
    (buildDeps (ks.zip (specs.map (fun pr => mkRefSpec pr.1 pr.2)))).lookup
        (some P) = some (some y) ∧
    (registerDeps
        (buildDeps (ks.zip (specs.map (fun pr => mkRefSpec pr.1 pr.2)))) []).lookup
        (some P) = some [(some y, [])] ∧
    (∀ adds : List (Option String × JVal),
      vtTracks (applyRecord [(some y, [])] adds) (some x) = false ∧
      refGenerate [(some P, applyRecord [(some y, [])] adds)] none (some P)
          (some x) r = JVal.null) := by
  have h1 : (buildDeps (ks.zip (specs.map (fun pr => mkRefSpec pr.1 pr.2)))).lookup
      (some P) = some (some y) := by
    rw [buildDeps_refSpecs ks specs hlen, foldl_mapSet_lookup_last, hy]
  have hnodup := buildDeps_keys_nodup (ks.zip (specs.map (fun pr => mkRefSpec pr.1 pr.2)))
  have hmem : ((some P : Option String), (some y : Option String)) ∈
      buildDeps (ks.zip (specs.map (fun pr => mkRefSpec pr.1 pr.2))) :=
    lookup_some_mem _ _ _ h1
  have h2 := registerDeps_lookup_mem _ [] _ _ hnodup hmem rfl
  refine ⟨h1, h2, ?_⟩
  intro adds
  have huntracked : vtTracks [((some y : Option String), ([] : List JVal))] (some x) = false := by
    have hb : ((some x : Option String) == some y) = false := by
      rw [beq_eq_false_iff_ne]
      simp [hxy]
    unfold vtTracks
    rw [List.lookup, hb]
    rfl
  have h3 := vtTracks_applyRecord adds _ _ huntracked
  refine ⟨h3, ?_⟩
  exact refGenerate_untracked _ P (some x) _ r (by simp [List.lookup]) h3

/-- Witness for C10: a template with two reference leaves to producer `P`,
paths `x` then `y`; after two guarded adds only `y`-values accumulate and the
`x` reference yields `null`. -/
theorem generator_deps_last_wins_witness :
    ((["k1", "k2"] : List String).length = ([("P", "x"), ("P", "y")] : List (String × String)).length ∧
      ("P", "x") ∈ ([("P", "x"), ("P", "y")] : List (String × String)) ∧
      (([("P", "x"), ("P", "y")] : List (String × String)).filter
        (fun pr => pr.1 = "P")).getLast? = some ("P", "y") ∧
      "x" ≠ "y") ∧
    (vtTracks (applyRecord [(some "y", [])]
        [(some "x", JVal.num 7), (some "y", JVal.num 1)]) (some "x") = false ∧
      refGenerate [(some "P", applyRecord [(some "y", [])]
          [(some "x", JVal.num 7), (some "y", JVal.num 1)])] none (some "P")
          (some "x") 0 = JVal.null) :=
  ⟨⟨by decide, by decide, by decide, by decide⟩,
    (generator_deps_last_wins ["k1", "k2"] [("P", "x"), ("P", "y")] "P" "x" "y" 0
      (by decide) (by decide) (by decide) (by decide)).2.2
      [(some "x", JVal.num 7), (some "y", JVal.num 1)]⟩

/-! ## Dotted paths and record reconstruction (C9) -/

/-- Split a character list at every `'.'`. -/
def splitChars : List Char → List (List Char)
  | [] => [[]]
  | c :: rest =>
    match splitChars rest with
    | [] => [[]]
    | p :: ps => if c = '.' then [] :: p :: ps else (c :: p) :: ps

/-- Modelled from the spec: the dotted-path decoding used when a record
value is written back at a flattened key (`lodash.set`'s conversion of
`"a.b.c"` into the segment list `["a","b","c"]`; bracket/index syntax is
outside the modelled scope). -/
def toPath (s : String) : List String :=
  (splitChars s.data).map (fun l => String.mk l)

/-- Assignment of one key in a record object: overwrite in place when
present, else append (JavaScript property assignment order semantics). -/
def setKey : List (String × JVal) → String → JVal → List (String × JVal)
  | [], k, v => [(k, v)]
  | e :: rest, k, v => if e.1 = k then (k, v) :: rest else e :: setKey rest k v

/-- The nested-object fields found at key `k`, or a fresh empty object when
the key is absent or holds a non-object. -/
def lookupObj (fs : List (String × JVal)) (k : String) : List (String × JVal) :=
  match fs.lookup k with
  | some (.obj inner) => inner
  | _ => []

/-- Modelled from the spec: `lodash.set` on a record object — walk the path
segments, materializing intermediate nested objects as needed, and assign
the value at the final segment. -/
def setPath : List (String × JVal) → List String → JVal → List (String × JVal)
  | fs, [], _ => fs
  | fs, [k], v => setKey fs k v
  | fs, k :: p :: ps, v => setKey fs k (.obj (setPath (lookupObj fs k) (p :: ps) v))

/-- `Generator.generate`'s record construction, starting from a given
partial record: `set(output, key, value)` for each flattened leaf in order. -/
def rebuildFrom (acc : List (String × JVal)) (leaves : List (String × JVal)) :
    List (String × JVal) :=
  leaves.foldl (fun a kv => setPath a (toPath kv.1) kv.2) acc

/-- Rebuilding a record from flattened leaves into an initially empty
object, as `Generator.generate` does. -/
def rebuild (leaves : List (String × JVal)) : List (String × JVal) :=
  rebuildFrom [] leaves

/-- Whether a key list is duplicate-free (JSON objects after parsing have
unique keys). -/
def nodupKeys : List String → Bool
  | [] => true
  | k :: ks => !(ks.contains k) && nodupKeys ks

mutual

/-- The scope of claim C9 over a field list: no dot-containing keys, no
generator-spec leaves (no node with a truthy `generator`), duplicate-free
keys at every level. -/
def scopeFields : List (String × JVal) → Bool
  | [] => true
  | (k, v) :: rest =>
    k.data.all (fun c => c != '.') && !(hasTruthyGenerator v) && scopeVal v &&
      scopeFields rest

def scopeVal : JVal → Bool
  | .obj fs => nodupKeys (fs.map Prod.fst) && scopeFields fs
  | _ => true

end

/-- The scope of claim C9 for a whole template document. -/
def scopeDoc (fields : List (String × JVal)) : Bool :=
  nodupKeys (fields.map Prod.fst) && scopeFields fields

mutual

/-- All object keys in the document are non-empty strings (the extra
condition the amended C9 needs). -/
def neKeysFields : List (String × JVal) → Bool
  | [] => true
  | (k, v) :: rest => k != "" && neKeysVal v && neKeysFields rest

def neKeysVal : JVal → Bool
  | .obj fs => neKeysFields fs
  | _ => true

end

/-- Counterexample to C9: the template `{"": {"b": 1}}` has no generator-spec
leaves and no dot-containing keys, yet flattening loses the empty key (an
empty `prev` string is falsy in `prev ? prev + "." + key : key`), so
rebuilding yields `{"b": 1}`, not the original shape. -/
theorem flatten_roundtrip_cex :
    scopeDoc [("", .obj [("b", .num 1)])] = true ∧
    rebuild (flatten [("", .obj [("b", .num 1)])]) = [("b", .num 1)] ∧
    rebuild (flatten [("", .obj [("b", .num 1)])]) ≠
      [("", .obj [("b", .num 1)])] := by
  refine ⟨rfl, rfl, ?_⟩
  intro h
  rw [(rfl : rebuild (flatten [("", .obj [("b", .num 1)])]) = [("b", .num 1)])] at h
  injection h with h1 _
  injection h1 with h2 _
  exact absurd h2 (by decide)

theorem splitChars_ne_nil : ∀ (l : List Char), splitChars l ≠ [] := by
  intro l
  induction l with
  | nil => simp [splitChars]
  | cons c rest ih =>
    rw [splitChars]
    cases hs : splitChars rest with
    | nil => simp
    | cons p ps =>
      by_cases hc : c = '.' <;> simp [hc]

theorem splitChars_no_dot : ∀ (l : List Char), (∀ c ∈ l, ¬(c = '.')) →
    splitChars l = [l] := by
  intro l
  induction l with
  | nil => intro _; rfl
  | cons c rest ih =>
    intro h
    rw [splitChars, ih (fun c hc => h c (List.mem_cons_of_mem _ hc))]
    simp [h c (List.mem_cons_self _ _)]

theorem splitChars_append_dot : ∀ (a b : List Char),
    splitChars (a ++ '.' :: b) = splitChars a ++ splitChars b := by
  intro a b
  induction a with
  | nil =>
    have h1 : splitChars ([] ++ '.' :: b) = splitChars ('.' :: b) := rfl
    have h2 : splitChars ([] : List Char) = [[]] := rfl
    rw [h1, h2]
    cases hs : splitChars b with
    | nil => exact absurd hs (splitChars_ne_nil b)
    | cons p ps =>
      rw [splitChars, hs]
      simp
  | cons c a' ih =>
    rw [List.cons_append, splitChars, ih, splitChars]
    cases hs : splitChars a' with
    | nil => exact absurd hs (splitChars_ne_nil a')
    | cons p ps =>
      by_cases hc : c = '.' <;> simp [hc]

theorem string_mk_data (s : String) : String.mk s.data = s := by
  cases s
  rfl

theorem string_data_append (s t : String) : (s ++ t).data = s.data ++ t.data := by
  cases s
  cases t
  rfl

theorem string_ne_empty_of_data (s : String) (h : s.data ≠ []) : s ≠ "" := by
  intro he
  rw [he] at h
  exact h rfl

theorem toPath_no_dot (k : String) (h : k.data.all (fun c => c != '.') = true) :
    toPath k = [k] := by
  rw [toPath, splitChars_no_dot]
  · rw [List.map_singleton, string_mk_data]
  · intro c hc
    have := List.all_eq_true.mp h c hc
    simpa using this

theorem toPath_append_dot (p k : String)
    (h : k.data.all (fun c => c != '.') = true) :
    toPath (p ++ "." ++ k) = toPath p ++ [k] := by
  have hdata : (p ++ "." ++ k).data = p.data ++ '.' :: k.data := by
    rw [string_data_append, string_data_append]
    simp
  rw [toPath, hdata, splitChars_append_dot, List.map_append]
  have hk : splitChars k.data = [k.data] := by
    apply splitChars_no_dot
    intro c hc
    have := List.all_eq_true.mp h c hc
    simpa using this
  rw [hk, List.map_singleton, string_mk_data]
  rfl

/-- The relation between the flattener's `prev` string and the segment list
it denotes: at the top level `prev` is absent, below it is the non-empty
dot-join of the segments. -/
def PrevRel : Option String → List String → Prop
  | none, ps => ps = []
  | some p, ps => toPath p = ps ∧ p ≠ ""

theorem toPath_mkKey (prev : Option String) (ps : List String) (k : String)
    (hpr : PrevRel prev ps) (hk1 : k ≠ "")
    (hk2 : k.data.all (fun c => c != '.') = true) :
    toPath (mkKey prev k) = ps ++ [k] ∧ mkKey prev k ≠ "" := by
  cases prev with
  | none =>
    obtain rfl : ps = [] := hpr
    exact ⟨by rw [mkKey, toPath_no_dot k hk2]; rfl, hk1⟩
  | some p =>
    obtain ⟨hp, hpne⟩ := hpr
    rw [mkKey, if_neg hpne]
    constructor
    · rw [toPath_append_dot p k hk2, hp]
    · apply string_ne_empty_of_data
      rw [string_data_append, string_data_append]
      simp

/-! Algebra of `setKey`, `setPath` and path-localized updates. -/

/-- Apply a function to the object fields found at a path, materializing the
path like `setPath` does. -/
def applyAt : List (String × JVal) → List String →
    (List (String × JVal) → List (String × JVal)) → List (String × JVal)
  | fs, [], f => f fs
  | fs, k :: ps, f => setKey fs k (.obj (applyAt (lookupObj fs k) ps f))

/-- The object fields reached by navigating a path (empty when missing). -/
def objAt : List (String × JVal) → List String → List (String × JVal)
  | fs, [] => fs
  | fs, k :: ps => objAt (lookupObj fs k) ps

theorem lookup_setKey_self (fs : List (String × JVal)) (k : String) (v : JVal) :
    (setKey fs k v).lookup k = some v := by
  induction fs with
  | nil => simp [setKey, List.lookup]
  | cons e rest ih =>
    by_cases h : e.1 = k
    · rw [setKey, if_pos h]
      simp [List.lookup]
    · rw [setKey, if_neg h, List.lookup]
      have hb : (k == e.1) = false := by
        rw [beq_eq_false_iff_ne]
        exact fun hk => h hk.symm
      rw [hb]
      exact ih

theorem setKey_setKey (fs : List (String × JVal)) (k : String) (v w : JVal) :
    setKey (setKey fs k v) k w = setKey fs k w := by
  induction fs with
  | nil => simp [setKey]
  | cons e rest ih =>
    by_cases h : e.1 = k
    · rw [setKey, if_pos h, setKey, if_pos rfl, setKey, if_pos h]
    · rw [setKey, if_neg h, setKey, if_neg h, setKey, if_neg h, ih]

theorem lookup_none_of_not_mem_keys (fs : List (String × JVal)) (k : String)
    (h : k ∉ fs.map Prod.fst) : fs.lookup k = none := by
  induction fs with
  | nil => rfl
  | cons e rest ih =>
    simp only [List.map_cons, List.mem_cons, not_or] at h
    obtain ⟨h1, h2⟩ := h
    rw [List.lookup]
    have hb : (k == e.1) = false := by
      rw [beq_eq_false_iff_ne]
      intro hk
      exact h1 (by rw [hk])
    rw [hb]
    exact ih h2

theorem lookupObj_not_mem (fs : List (String × JVal)) (k : String)
    (h : k ∉ fs.map Prod.fst) : lookupObj fs k = [] := by
  rw [lookupObj, lookup_none_of_not_mem_keys fs k h]

theorem setKey_not_mem (fs : List (String × JVal)) (k : String) (v : JVal)
    (h : k ∉ fs.map Prod.fst) : setKey fs k v = fs ++ [(k, v)] := by
  induction fs with
  | nil => rfl
  | cons e rest ih =>
    simp only [List.map_cons, List.mem_cons, not_or] at h
    obtain ⟨h1, h2⟩ := h
    have hne : ¬(e.1 = k) := by
      intro he
      exact h1 (by rw [he])
    rw [setKey, if_neg hne, ih h2]
    rfl

theorem lookupObj_setKey_obj (fs : List (String × JVal)) (k : String)
    (inner : List (String × JVal)) :
    lookupObj (setKey fs k (.obj inner)) k = inner := by
  rw [lookupObj, lookup_setKey_self]

theorem setPath_append_singleton :
    ∀ (ps : List String) (fs : List (String × JVal)) (k : String) (v : JVal),
      setPath fs (ps ++ [k]) v = applyAt fs ps (fun g => setKey g k v) := by
  intro ps
  induction ps with
  | nil => intro fs k v; rfl
  | cons p ps' ih =>
    intro fs k v
    cases ps' with
    | nil => rfl
    | cons q qs =>
      show setKey fs p (.obj (setPath (lookupObj fs p) ((q :: qs) ++ [k]) v)) = _
      rw [ih]
      rfl

theorem applyAt_applyAt :
    ∀ (ps : List String) (fs : List (String × JVal))
      (f g : List (String × JVal) → List (String × JVal)),
      applyAt (applyAt fs ps f) ps g = applyAt fs ps (fun x => g (f x)) := by
  intro ps
  induction ps with
  | nil => intro fs f g; rfl
  | cons p ps' ih =>
    intro fs f g
    show applyAt (setKey fs p (.obj (applyAt (lookupObj fs p) ps' f))) (p :: ps') g = _
    rw [applyAt, lookupObj_setKey_obj, setKey_setKey, ih]
    rfl

theorem applyAt_append_singleton :
    ∀ (ps : List String) (fs : List (String × JVal)) (k : String)
      (f : List (String × JVal) → List (String × JVal)),
      applyAt fs (ps ++ [k]) f =
        applyAt fs ps (fun g => setKey g k (.obj (f (lookupObj g k)))) := by
  intro ps
  induction ps with
  | nil => intro fs k f; rfl
  | cons p ps' ih =>
    intro fs k f
    show setKey fs p (.obj (applyAt (lookupObj fs p) (ps' ++ [k]) f)) = _
    rw [ih]
    rfl

theorem applyAt_congr :
    ∀ (ps : List String) (fs : List (String × JVal))
      (f g : List (String × JVal) → List (String × JVal)),
      f (objAt fs ps) = g (objAt fs ps) → applyAt fs ps f = applyAt fs ps g := by
  intro ps
  induction ps with
  | nil => intro fs f g h; exact h
  | cons p ps' ih =>
    intro fs f g h
    show setKey fs p (.obj (applyAt (lookupObj fs p) ps' f)) = _
    rw [ih (lookupObj fs p) f g h]
    rfl

theorem objAt_applyAt :
    ∀ (ps : List String) (fs : List (String × JVal))
      (f : List (String × JVal) → List (String × JVal)),
      objAt (applyAt fs ps f) ps = f (objAt fs ps) := by
  intro ps
  induction ps with
  | nil => intro fs f; rfl
  | cons p ps' ih =>
    intro fs f
    show objAt (setKey fs p (.obj (applyAt (lookupObj fs p) ps' f))) (p :: ps') = _
    rw [objAt, lookupObj_setKey_obj, ih]
    rfl

theorem objAt_append :
    ∀ (ps qs : List String) (fs : List (String × JVal)),
      objAt fs (ps ++ qs) = objAt (objAt fs ps) qs := by
  intro ps
  induction ps with
  | nil => intro qs fs; rfl
  | cons p ps' ih =>
    intro qs fs
    show objAt (lookupObj fs p) (ps' ++ qs) = _
    rw [ih]
    rfl

theorem rebuildFrom_append (acc : List (String × JVal))
    (l₁ l₂ : List (String × JVal)) :
    rebuildFrom acc (l₁ ++ l₂) = rebuildFrom (rebuildFrom acc l₁) l₂ :=
  List.foldl_append _ _ _ _

/-- Induction motive (field-list level): rebuilding the flattened leaves of a
well-formed field list under prefix `prev` appends the fields verbatim to the
object at the denoted path. -/
def RebuildFieldsOk (prev : Option String) (fields : List (String × JVal)) : Prop :=
  scopeFields fields = true → neKeysFields fields = true →
  nodupKeys (fields.map Prod.fst) = true →
  ∀ (ps : List String) (acc : List (String × JVal)), PrevRel prev ps →
    (∀ k ∈ fields.map Prod.fst, k ∉ (objAt acc ps).map Prod.fst) →
    (ps = [] ∨ fields ≠ []) →
    rebuildFrom acc (flattenFields prev fields) =
      applyAt acc ps (fun g => g ++ fields)

/-- Induction motive (entry level): rebuilding the flattened leaves of one
well-formed entry appends that entry to the object at the denoted path. -/
def RebuildEntryOk (prev : Option String) (k : String) (v : JVal) : Prop :=
  k.data.all (fun c => c != '.') = true → k ≠ "" →
  hasTruthyGenerator v = false → scopeVal v = true → neKeysVal v = true →
  ∀ (ps : List String) (acc : List (String × JVal)), PrevRel prev ps →
    k ∉ (objAt acc ps).map Prod.fst →
    rebuildFrom acc (flattenEntry prev k v) =
      applyAt acc ps (fun g => g ++ [(k, v)])

theorem rebuild_entry_leaf (prev : Option String) (k : String) (v : JVal)
    (ps : List String) (acc : List (String × JVal))
    (hpr : PrevRel prev ps) (hk1 : k ≠ "")
    (hk2 : k.data.all (fun c => c != '.') = true)
    (hmem : k ∉ (objAt acc ps).map Prod.fst)
    (hflat : flattenEntry prev k v = [(mkKey prev k, v)]) :
    rebuildFrom acc (flattenEntry prev k v) =
      applyAt acc ps (fun g => g ++ [(k, v)]) := by
  rw [hflat]
  have h1 : rebuildFrom acc [(mkKey prev k, v)] =
      setPath acc (toPath (mkKey prev k)) v := rfl
  obtain ⟨hp, _⟩ := toPath_mkKey prev ps k hpr hk1 hk2
  rw [h1, hp, setPath_append_singleton]
  apply applyAt_congr
  rw [setKey_not_mem _ _ _ hmem]

theorem rebuild_flatten_main :
    ∀ (prev : Option String) (fields : List (String × JVal)),
      RebuildFieldsOk prev fields := by
  apply flattenFields.induct RebuildFieldsOk RebuildEntryOk
  · -- truthy generator leaf: excluded by the scope hypotheses
    intro t prev k hgen
    intro _ _ hgenfalse _ _ ps acc _ _
    rw [hgen] at hgenfalse
    exact absurd hgenfalse (by simp)
  · -- empty object: emitted as a leaf
    intro prev k fs hempty hgen
    intro hk2 hk1 hgenf _ _ ps acc hpr hmem
    apply rebuild_entry_leaf prev k (.obj fs) ps acc hpr hk1 hk2 hmem
    simp [flattenEntry, hgenf, hempty]
  · -- non-empty object without truthy generator: recurse
    intro prev k newKey fs hempty hgen ih
    intro hk2 hk1 hgenf hscope hnek ps acc hpr hmem
    have hflat : flattenEntry prev k (.obj fs) =
        flattenFields (some (mkKey prev k)) fs := by
      simp [flattenEntry, hgenf, hempty]
    simp only [scopeVal, Bool.and_eq_true] at hscope
    obtain ⟨hnodup, hsf⟩ := hscope
    have hnef : neKeysFields fs = true := by simpa [neKeysVal] using hnek
    obtain ⟨hp, hne''⟩ := toPath_mkKey prev ps k hpr hk1 hk2
    have hfs_ne : fs ≠ [] := by
      intro h
      rw [h] at hempty
      exact hempty rfl
    have hdisj : ∀ k' ∈ fs.map Prod.fst,
        k' ∉ (objAt acc (ps ++ [k])).map Prod.fst := by
      intro k' _
      rw [objAt_append]
      show k' ∉ (objAt (lookupObj (objAt acc ps) k) []).map Prod.fst
      rw [lookupObj_not_mem _ _ hmem]
      simp [objAt]
    have M := ih hsf hnef hnodup (ps ++ [k]) acc ⟨hp, hne''⟩ hdisj (Or.inr hfs_ne)
    rw [hflat, M, applyAt_append_singleton]
    apply applyAt_congr
    rw [lookupObj_not_mem _ _ hmem, List.nil_append,
      setKey_not_mem _ _ _ hmem]
  · -- scalar / array leaf
    intro t prev k hgen hnotobj
    intro hk2 hk1 hgenf _ _ ps acc hpr hmem
    apply rebuild_entry_leaf prev k t ps acc hpr hk1 hk2 hmem
    cases t with
    | obj fs => exact absurd rfl (hnotobj fs)
    | null => simp [flattenEntry, hgenf]
    | undef => simp [flattenEntry, hgenf]
    | bool b => simp [flattenEntry, hgenf]
    | num n => simp [flattenEntry, hgenf]
    | str s => simp [flattenEntry, hgenf]
    | arr vs => simp [flattenEntry, hgenf]
  · -- empty field list
    intro prev
    intro _ _ _ ps acc hpr _ hor
    rcases hor with rfl | h
    · simp [flattenFields, rebuildFrom, applyAt]
    · exact absurd rfl h
  · -- cons field list
    intro prev k v rest m2 m1
    intro hscope hnek hnodup ps acc hpr hdisj _hor
    simp only [scopeFields, Bool.and_eq_true] at hscope
    obtain ⟨⟨⟨hk2, hgenb⟩, hsv⟩, hsrest⟩ := hscope
    have hgenf : hasTruthyGenerator v = false := by
      simpa using hgenb
    simp only [neKeysFields, Bool.and_eq_true] at hnek
    obtain ⟨⟨hk1b, hnev⟩, hnerest⟩ := hnek
    have hk1 : k ≠ "" := by simpa using hk1b
    simp only [nodupKeys, List.map_cons, Bool.and_eq_true] at hnodup
    obtain ⟨hkrest, hnodrest⟩ := hnodup
    have hknotin : k ∉ rest.map Prod.fst := by simpa using hkrest
    have hflat : flattenFields prev ((k, v) :: rest) =
        flattenEntry prev k v ++ flattenFields prev rest := rfl
    rw [hflat, rebuildFrom_append]
    have E := m2 hk2 hk1 hgenf hsv hnev ps acc hpr (hdisj k (by simp))
    rw [E]
    cases rest with
    | nil => rfl
    | cons r rs =>
      have hdisj' : ∀ k' ∈ (r :: rs).map Prod.fst,
          k' ∉ (objAt (applyAt acc ps (fun g => g ++ [(k, v)])) ps).map Prod.fst := by
        intro k' hk'
        rw [objAt_applyAt, List.map_append]
        simp only [List.mem_append, not_or]
        constructor
        · refine hdisj k' ?_
          rw [List.map_cons]
          exact List.mem_cons_of_mem _ hk'
        · intro hc
          simp at hc
          rw [hc] at hk'
          exact hknotin hk'
      have M := m1 hsrest hnerest hnodrest ps
        (applyAt acc ps (fun g => g ++ [(k, v)])) hpr hdisj' (Or.inr (by simp))
      rw [M, applyAt_applyAt]
      have hfe : (fun x => (x ++ [(k, v)]) ++ (r :: rs)) =
          (fun g => g ++ ((k, v) :: r :: rs)) := by
        funext x
        simp
      rw [hfe]

/-- C9 (amended): flattening is order-preserving and path-reversible for
every nested template without generator-spec leaves, dot-containing keys,
**or empty-string keys**: `{"a":{"b":1,"c":2}}` flattens to `a.b` → 1 then
`a.c` → 2 in the document's own traversal order, and writing each leaf's
value back at its dotted path in that order (as `Generator.generate` does
via `set`) reconstructs the original nested shape. -/
theorem flatten_roundtrip :
    flatten [("a", .obj [("b", .num 1), ("c", .num 2)])] =
      [("a.b", .num 1), ("a.c", .num 2)] ∧
    (∀ fields : List (String × JVal),
      scopeDoc fields = true → neKeysFields fields = true →
      rebuild (flatten fields) = fields) := by
  refine ⟨rfl, ?_⟩
  intro fields hscope hnek
  simp only [scopeDoc, Bool.and_eq_true] at hscope
  obtain ⟨hnodup, hsf⟩ := hscope
  have h := rebuild_flatten_main none fields hsf hnek hnodup [] [] rfl
    (by simp [objAt]) (Or.inl rfl)
  exact h.trans (by simp [applyAt])

/-- Witness for C9's amended theorem at the claim's own example document. -/
theorem flatten_roundtrip_witness :
    (scopeDoc [("a", JVal.obj [("b", JVal.num 1), ("c", JVal.num 2)])] = true ∧
      neKeysFields [("a", JVal.obj [("b", JVal.num 1), ("c", JVal.num 2)])] = true) ∧
    rebuild (flatten [("a", JVal.obj [("b", JVal.num 1), ("c", JVal.num 2)])]) =
      [("a", JVal.obj [("b", JVal.num 1), ("c", JVal.num 2)])] :=
  ⟨⟨rfl, rfl⟩, flatten_roundtrip.2 _ rfl rfl⟩

end MuchJson
